import Mathlib

/-!
Verification of the line-diff renderer of the Obsidian note-diff plugin.

The rendering logic lives in `DiffModal.updateDiffDisplay` (src/src/DiffModal.ts):
it calls the external line-diff library (`Diff.diffLines` with
`newlineIsToken: true, ignoreWhitespace: false`), then for each produced
segment splits its text on `"\n"`, drops a final empty element, and emits
one prefixed line per element, with a line break after a line unless it is
the last line of its segment and the segment text does not end in `"\n"`.

The diff computation itself is an external dependency (the `diff` npm
package), so it is modelled here from the spec: a longest-common-subsequence
diff over line tokens, where the line terminator `"\n"` is its own token
(`newlineIsToken`) and comparison is whitespace-sensitive plain string
equality (`ignoreWhitespace: false`).  Everything downstream of the diff
result is translated directly from `updateDiffDisplay`, and the modal's
loading logic from `onOpen` / `loadFilesContent`.
-/

namespace NoteDiff

/-- Classification of a diff segment: the library marks each part with
`added` / `removed` booleans; neither set means the part is unchanged. -/
inductive Kind where
  | unchanged
  | added
  | removed
  deriving DecidableEq, Repr

/-- One part of the diff result: a maximal run of same-classified tokens,
with `text` the concatenation of its tokens (`part.value`). -/
structure DiffSegment where
  kind : Kind
  text : String
  deriving DecidableEq, Repr

/-- One physical display line emitted by `updateDiffDisplay`: the segment
kind, the two-character marker put before the line (`"+ "`, `"- "`, `"  "`),
the line's own text, and whether a `<br>` is appended. -/
structure RenderedLine where
  kind : Kind
  pre : String
  content : String
  hasBreak : Bool
  deriving DecidableEq, Repr

/-- JavaScript `str.split("\n")` at the character-list level: the list of
chunks between occurrences of `'\n'`.  Always nonempty; `[] ↦ [[]]` exactly
as `"".split("\n")` is `[""]`. -/
def splitNl : List Char → List (List Char)
  | [] => [[]]
  | c :: cs =>
    if c = '\n' then [] :: splitNl cs
    else
      match splitNl cs with
      | [] => [[c]]
      | l :: ls => (c :: l) :: ls

/-- Line 198 of DiffModal.ts: `part.value.split("\n")`. -/
def splitLines (s : String) : List String :=
  (splitNl s.data).map (fun l => String.mk l)

/-- Line 199 of DiffModal.ts: `if (lines[lines.length - 1] === "") lines.pop()`. -/
def dropFinalEmpty (lines : List String) : List String :=
  if lines.getLast? = some "" then lines.dropLast else lines

/-- The raw lines a segment contributes to the display: split on `"\n"`,
then drop a final empty element (lines 198–199 of DiffModal.ts). -/
def segLines (s : String) : List String :=
  dropFinalEmpty (splitLines s)

/-- Line 207 of DiffModal.ts: `part.value.endsWith("\n")`, expressed on
the character list. -/
def endsWithNl (s : String) : Bool :=
  decide (s.data.getLast? = some '\n')

/-- Whether a string contains a line-break character. -/
def hasNl (s : String) : Bool :=
  s.data.contains '\n'

/-- Concatenation of a list of strings, in order. -/
def joinAll : List String → String
  | [] => ""
  | t :: ts => t ++ joinAll ts

/-- Modelled from the spec: the tokenizer of the external diff library under
`newlineIsToken: true` — the input is split on the line terminator, the
terminators themselves are kept as separate `"\n"` tokens, and a final empty
token produced by a trailing terminator is dropped.  Character-list level. -/
def tokAux : List Char → List (List Char)
  | [] => []
  | c :: cs =>
    if c = '\n' then [] :: ['\n'] :: tokAux cs
    else
      match tokAux cs with
      | [] => [[c]]
      | l :: ls => (c :: l) :: ls

/-- Modelled from the spec: line tokens of a document, line terminators
included as their own tokens. -/
def tokenize (s : String) : List String :=
  (tokAux s.data).map (fun l => String.mk l)

/-- Fuel-indexed length of a longest common subsequence of two token lists;
the fuel bounds the recursion depth and `lcsLen` supplies enough of it. -/
def lcsLenF : Nat → List String → List String → Nat
  | 0, _, _ => 0
  | _ + 1, [], _ => 0
  | _ + 1, _, [] => 0
  | n + 1, x :: xs, y :: ys =>
    if x = y then lcsLenF n xs ys + 1
    else max (lcsLenF n xs (y :: ys)) (lcsLenF n (x :: xs) ys)

/-- Length of a longest common subsequence of two token lists, compared by
whitespace-sensitive string equality. -/
def lcsLen (xs ys : List String) : Nat :=
  lcsLenF (xs.length + ys.length) xs ys

/-- Modelled from the spec: the token-level edit script of an LCS line diff.
Equal heads are kept; otherwise the side whose removal preserves a longest
common subsequence is consumed, removals preceding insertions on a tie, so
removed tokens appear before added ones inside a changed region. -/
def tokenDiffF : Nat → List String → List String → List (Kind × String)
  | 0, _, _ => []
  | _ + 1, [], ys => ys.map (fun y => (Kind.added, y))
  | _ + 1, x :: xs, [] => (x :: xs).map (fun z => (Kind.removed, z))
  | n + 1, x :: xs, y :: ys =>
    if x = y then (Kind.unchanged, x) :: tokenDiffF n xs ys
    else if lcsLen (x :: xs) ys ≤ lcsLen xs (y :: ys) then
      (Kind.removed, x) :: tokenDiffF n xs (y :: ys)
    else (Kind.added, y) :: tokenDiffF n (x :: xs) ys

/-- Modelled from the spec: token-level diff with sufficient fuel. -/
def tokenDiff (xs ys : List String) : List (Kind × String) :=
  tokenDiffF (xs.length + ys.length) xs ys

/-- Modelled from the spec: adjacent tokens of equal classification are
merged into maximal segments whose text is the concatenated token text. -/
def mergeSegs : List (Kind × String) → List DiffSegment
  | [] => []
  | (k, t) :: rest =>
    match mergeSegs rest with
    | [] => [⟨k, t⟩]
    | s :: ss => if s.kind = k then ⟨k, t ++ s.text⟩ :: ss else ⟨k, t⟩ :: s :: ss

/-- Modelled from the spec: `Diff.diffLines(a, b, { newlineIsToken: true,
ignoreWhitespace: false })` — the ordered segment sequence of the line diff
of the two documents. -/
def diffLines (a b : String) : List DiffSegment :=
  mergeSegs (tokenDiff (tokenize a) (tokenize b))

/-- The marker placed before a line (lines 203–205 of DiffModal.ts). -/
def preOf : Kind → String
  | Kind.added => "+ "
  | Kind.removed => "- "
  | Kind.unchanged => "  "

/-- Lines 198–210 of DiffModal.ts: the display lines of one diff segment.
A `<br>` follows a line iff `index < lines.length - 1 ||
part.value.endsWith("\n")`. -/
def renderSegment (seg : DiffSegment) : List RenderedLine :=
  let lines := segLines seg.text
  lines.enum.map (fun p =>
    { kind := seg.kind
      pre := preOf seg.kind
      content := p.2
      hasBreak := decide (p.1 < lines.length - 1) || endsWithNl seg.text })

/-- The full rendered output of `updateDiffDisplay` for two documents:
every segment's lines, in segment order. -/
def render (a b : String) : List RenderedLine :=
  (diffLines a b).flatMap renderSegment

/-- The modal's fields that `updateDiffDisplay` consults: whether the two
file references are set (`this.file1`, `this.file2`), whether the second
file was passed to the constructor, and the two content strings (which are
initialised to `""`, so an unloaded content is the empty string). -/
structure ModalState where
  file1Present : Bool
  file2Present : Bool
  initialFile2Provided : Bool
  file1Content : String
  file2Content : String
  deriving DecidableEq, Repr

/-- What `updateDiffDisplay` puts into the result element: one of the three
placeholder messages, or the rendered diff. -/
inductive DisplayResult where
  | selectPrompt
  | waiting
  | ready
  | diffView (lines : List RenderedLine)
  deriving DecidableEq, Repr

/-- Lines 157–214 of DiffModal.ts.  The JavaScript guard
`!this.file1 || !this.file2 || !this.file1Content || !this.file2Content`
relies on string falsiness: `!content` holds exactly when the string is
empty, so an empty content string is treated as not ready. -/
def updateDiffDisplay (st : ModalState) : DisplayResult :=
  if !st.file1Present || !st.file2Present
      || st.file1Content == "" || st.file2Content == "" then
    if !st.file2Present then DisplayResult.selectPrompt
    else if st.file1Content == "" || st.file2Content == "" then DisplayResult.waiting
    else DisplayResult.ready
  else DisplayResult.diffView (render st.file1Content st.file2Content)

/-- Result of `loadFilesContent`: the returned boolean together with the
content fields after the call (a failed read leaves the old value). -/
structure LoadOutcome where
  success : Bool
  file1Content : String
  file2Content : String
  deriving DecidableEq, Repr

/-- Lines 105–133 of DiffModal.ts.  The reads are modelled as `Option`
values: `none` is a thrown read error, caught by the surrounding
`try`/`catch`, which reports a notice and returns `false`.  `file2` is read
only when present; a missing-but-expected `file2` is the internal-error
branch, also returning `false`. -/
def loadFilesContent (st : ModalState) (read1 read2 : Option String) : LoadOutcome :=
  match read1 with
  | none => { success := false, file1Content := st.file1Content, file2Content := st.file2Content }
  | some c1 =>
    if st.file2Present then
      match read2 with
      | none => { success := false, file1Content := c1, file2Content := st.file2Content }
      | some c2 => { success := true, file1Content := c1, file2Content := c2 }
    else if st.initialFile2Provided then
      { success := false, file1Content := c1, file2Content := st.file2Content }
    else
      { success := true, file1Content := c1, file2Content := st.file2Content }

/-- What reaches the result element after `onOpen`: either the display
computed by `updateDiffDisplay`, or the "Error loading file content."
message when loading failed. -/
inductive OpenResult where
  | shown (d : DisplayResult)
  | loadError
  deriving DecidableEq, Repr

/-- Lines 94–101 of DiffModal.ts: load both contents; on success call
`updateDiffDisplay` on the updated state, otherwise show the load error. -/
def onOpen (st : ModalState) (read1 read2 : Option String) : OpenResult :=
  let lo := loadFilesContent st read1 read2
  let st2 := { st with file1Content := lo.file1Content, file2Content := lo.file2Content }
  if lo.success then OpenResult.shown (updateDiffDisplay st2) else OpenResult.loadError

/-- Concatenation of the texts of the non-added segments, in order: the
document-A side of the segment sequence. -/
def sourceOf : List DiffSegment → String
  | [] => ""
  | s :: ss => if s.kind = Kind.added then sourceOf ss else s.text ++ sourceOf ss

/-- Concatenation of the texts of the non-removed segments, in order: the
document-B side of the segment sequence. -/
def targetOf : List DiffSegment → String
  | [] => ""
  | s :: ss => if s.kind = Kind.removed then targetOf ss else s.text ++ targetOf ss

/-- Token-level counterpart of `sourceOf`. -/
def joinNonAdded : List (Kind × String) → String
  | [] => ""
  | (k, t) :: r => if k = Kind.added then joinNonAdded r else t ++ joinNonAdded r

/-- Token-level counterpart of `targetOf`. -/
def joinNonRemoved : List (Kind × String) → String
  | [] => ""
  | (k, t) :: r => if k = Kind.removed then joinNonRemoved r else t ++ joinNonRemoved r

/-! ## Basic lemmas about the tokenizer and concatenation -/

theorem tokAux_flatten (cs : List Char) : (tokAux cs).flatten = cs := by
  induction cs with
  | nil => rfl
  | cons c cs ih =>
    by_cases hc : c = '\n'
    · simp [tokAux, hc]
      exact ih
    · simp only [tokAux, if_neg hc]
      cases h : tokAux cs with
      | nil =>
        have : cs = [] := by simpa [h] using ih
        simp [this]
      | cons l ls =>
        have : (l :: ls).flatten = cs := by simpa [h] using ih
        simpa using this

theorem joinAll_data (ts : List String) :
    (joinAll ts).data = (ts.map String.data).flatten := by
  induction ts with
  | nil => rfl
  | cons t ts ih => simp [joinAll, String.data_append, ih]

theorem joinAll_tokenize (s : String) : joinAll (tokenize s) = s := by
  apply String.ext
  rw [joinAll_data]
  simp only [tokenize, List.map_map]
  have hcomp : (String.data ∘ fun l => String.mk l) = id := rfl
  rw [hcomp, List.map_id, tokAux_flatten]

/-! ## Projections of the token diff and of segment merging -/

theorem mergeSegs_sourceOf (ops : List (Kind × String)) :
    sourceOf (mergeSegs ops) = joinNonAdded ops := by
  induction ops with
  | nil => rfl
  | cons op rest ih =>
    obtain ⟨k, t⟩ := op
    simp only [mergeSegs]
    split
    · rename_i h
      have hrest : joinNonAdded rest = "" := by
        rw [h] at ih
        exact ih.symm
      by_cases hk : k = Kind.added <;>
        simp [sourceOf, joinNonAdded, hk, hrest]
    · rename_i s ss h
      have hrest : sourceOf (s :: ss) = joinNonAdded rest := by
        rw [← h]; exact ih
      by_cases hks : s.kind = k
      · rw [if_pos hks]
        by_cases hk : k = Kind.added
        · have hs : s.kind = Kind.added := by rw [hks, hk]
          simp only [sourceOf, if_pos hk, joinNonAdded]
          simp only [sourceOf, if_pos hs] at hrest
          exact hrest
        · have hs : ¬ s.kind = Kind.added := by rw [hks]; exact hk
          simp only [sourceOf, if_neg hk, joinNonAdded]
          simp only [sourceOf, if_neg hs] at hrest
          rw [String.append_assoc, hrest]
      · rw [if_neg hks]
        simp only [sourceOf] at hrest
        by_cases hk : k = Kind.added <;>
          simp [sourceOf, joinNonAdded, hk, hrest]

theorem mergeSegs_targetOf (ops : List (Kind × String)) :
    targetOf (mergeSegs ops) = joinNonRemoved ops := by
  induction ops with
  | nil => rfl
  | cons op rest ih =>
    obtain ⟨k, t⟩ := op
    simp only [mergeSegs]
    split
    · rename_i h
      have hrest : joinNonRemoved rest = "" := by
        rw [h] at ih
        exact ih.symm
      by_cases hk : k = Kind.removed <;>
        simp [targetOf, joinNonRemoved, hk, hrest]
    · rename_i s ss h
      have hrest : targetOf (s :: ss) = joinNonRemoved rest := by
        rw [← h]; exact ih
      by_cases hks : s.kind = k
      · rw [if_pos hks]
        by_cases hk : k = Kind.removed
        · have hs : s.kind = Kind.removed := by rw [hks, hk]
          simp only [targetOf, if_pos hk, joinNonRemoved]
          simp only [targetOf, if_pos hs] at hrest
          exact hrest
        · have hs : ¬ s.kind = Kind.removed := by rw [hks]; exact hk
          simp only [targetOf, if_neg hk, joinNonRemoved]
          simp only [targetOf, if_neg hs] at hrest
          rw [String.append_assoc, hrest]
      · rw [if_neg hks]
        simp only [targetOf] at hrest
        by_cases hk : k = Kind.removed <;>
          simp [targetOf, joinNonRemoved, hk, hrest]

theorem joinNonAdded_allAdded (ys : List String) :
    joinNonAdded (ys.map (fun y => (Kind.added, y))) = "" := by
  induction ys with
  | nil => rfl
  | cons y ys ih => simp [joinNonAdded, ih]

theorem joinNonRemoved_allAdded (ys : List String) :
    joinNonRemoved (ys.map (fun y => (Kind.added, y))) = joinAll ys := by
  induction ys with
  | nil => rfl
  | cons y ys ih => simp [joinNonRemoved, joinAll, ih]

theorem joinNonRemoved_allRemoved (xs : List String) :
    joinNonRemoved (xs.map (fun z => (Kind.removed, z))) = "" := by
  induction xs with
  | nil => rfl
  | cons x xs ih => simp [joinNonRemoved, ih]

theorem joinNonAdded_allRemoved (xs : List String) :
    joinNonAdded (xs.map (fun z => (Kind.removed, z))) = joinAll xs := by
  induction xs with
  | nil => rfl
  | cons x xs ih => simp [joinNonAdded, joinAll, ih]

theorem tokenDiffF_proj (n : Nat) :
    ∀ xs ys : List String, xs.length + ys.length ≤ n →
      joinNonAdded (tokenDiffF n xs ys) = joinAll xs ∧
      joinNonRemoved (tokenDiffF n xs ys) = joinAll ys := by
  induction n with
  | zero =>
    intro xs ys h
    have hx : xs = [] := by cases xs <;> simp_all
    have hy : ys = [] := by cases ys <;> simp_all
    subst hx; subst hy
    exact ⟨rfl, rfl⟩
  | succ n ih =>
    intro xs ys h
    cases xs with
    | nil =>
      simp [tokenDiffF, joinNonAdded_allAdded, joinNonRemoved_allAdded, joinAll]
    | cons x xs =>
      cases ys with
      | nil =>
        simp [tokenDiffF, joinNonAdded, joinNonRemoved,
          joinNonAdded_allRemoved, joinNonRemoved_allRemoved, joinAll]
      | cons y ys =>
        simp only [List.length_cons] at h
        by_cases hxy : x = y
        · have := ih xs ys (by omega)
          simp only [tokenDiffF, if_pos hxy, joinNonAdded, joinNonRemoved, joinAll]
          subst hxy
          simp [this.1, this.2]
        · by_cases hle : lcsLen (x :: xs) ys ≤ lcsLen xs (y :: ys)
          · have := ih xs (y :: ys) (by simp; omega)
            simp only [tokenDiffF, if_neg hxy, if_pos hle, joinNonAdded,
              joinNonRemoved, joinAll]
            simp [this.1, this.2, joinAll]
          · have := ih (x :: xs) ys (by simp; omega)
            simp only [tokenDiffF, if_neg hxy, if_neg hle, joinNonAdded,
              joinNonRemoved, joinAll]
            simp [this.1, this.2, joinAll]

/-- C1. For every pair of input strings, concatenating the texts of the
unchanged and removed segments of the line diff, in order, yields the first
string exactly, and concatenating the unchanged and added segment texts
yields the second string exactly. -/
theorem claim_C1_reconstruction (a b : String) :
    sourceOf (diffLines a b) = a ∧ targetOf (diffLines a b) = b := by
  have hp := tokenDiffF_proj ((tokenize a).length + (tokenize b).length)
    (tokenize a) (tokenize b) (le_refl _)
  constructor
  · rw [diffLines, mergeSegs_sourceOf, tokenDiff, hp.1, joinAll_tokenize]
  · rw [diffLines, mergeSegs_targetOf, tokenDiff, hp.2, joinAll_tokenize]

/-! ## The diff of a document with itself -/

theorem tokAux_ne_nil (c : Char) (cs : List Char) : tokAux (c :: cs) ≠ [] := by
  simp only [tokAux]
  split
  · simp
  · split <;> simp

theorem tokenize_eq_nil {s : String} (h : tokenize s = []) : s = "" := by
  apply String.ext
  have htok : tokAux s.data = [] := by
    simpa [tokenize] using h
  cases hd : s.data with
  | nil => rfl
  | cons c cs =>
    rw [hd] at htok
    exact absurd htok (tokAux_ne_nil c cs)

theorem tokenDiffF_self (n : Nat) :
    ∀ xs : List String, xs.length ≤ n →
      tokenDiffF n xs xs = xs.map (fun x => (Kind.unchanged, x)) := by
  induction n with
  | zero =>
    intro xs h
    have hx : xs = [] := by cases xs <;> simp_all
    subst hx
    rfl
  | succ n ih =>
    intro xs h
    cases xs with
    | nil => rfl
    | cons x xs =>
      have hlen : xs.length ≤ n := by
        simp only [List.length_cons] at h
        omega
      simp [tokenDiffF, ih xs hlen]

theorem mergeSegs_unchanged (t : String) (ts : List String) :
    mergeSegs ((t :: ts).map (fun x => (Kind.unchanged, x)))
      = [⟨Kind.unchanged, joinAll (t :: ts)⟩] := by
  induction ts generalizing t with
  | nil => simp [mergeSegs, joinAll]
  | cons t2 ts ih =>
    have ih2 := ih t2
    simp only [List.map_cons] at ih2 ⊢
    rw [mergeSegs, ih2]
    simp [joinAll]

theorem diffLines_self (s : String) (hne : tokenize s ≠ []) :
    diffLines s s = [⟨Kind.unchanged, s⟩] := by
  have hfuel : (tokenize s).length ≤ (tokenize s).length + (tokenize s).length := by omega
  have htd : tokenDiff (tokenize s) (tokenize s)
      = (tokenize s).map (fun x => (Kind.unchanged, x)) :=
    tokenDiffF_self _ _ hfuel
  obtain ⟨t, ts, hts⟩ : ∃ t ts, tokenize s = t :: ts := by
    cases h : tokenize s with
    | nil => exact absurd h hne
    | cons t ts => exact ⟨t, ts, rfl⟩
  rw [diffLines, htd, hts, mergeSegs_unchanged, ← hts, joinAll_tokenize]

theorem renderSegment_contents (seg : DiffSegment) :
    (renderSegment seg).map RenderedLine.content = segLines seg.text := by
  simp only [renderSegment]
  rw [List.map_map]
  have hcomp : (RenderedLine.content ∘ fun p : Nat × String =>
      ({ kind := seg.kind
         pre := preOf seg.kind
         content := p.2
         hasBreak := decide (p.1 < (segLines seg.text).length - 1)
           || endsWithNl seg.text } : RenderedLine)) = Prod.snd := rfl
  rw [hcomp, List.enum_map_snd]

theorem renderSegment_kind (seg : DiffSegment) (l : RenderedLine)
    (h : l ∈ renderSegment seg) : l.kind = seg.kind := by
  simp only [renderSegment, List.mem_map] at h
  obtain ⟨p, _, rfl⟩ := h
  rfl

/-- C7. Rendering a document against itself yields only unchanged lines,
one rendered line per line of the document (so the rendered line count
equals the document's line count, under the source's line-splitting
convention of `segLines`). -/
theorem claim_C7_self_render (s : String) :
    (render s s).map RenderedLine.content = segLines s
    ∧ ((render s s).all fun l => l.kind == Kind.unchanged) = true := by
  by_cases h : tokenize s = []
  · have hs : s = "" := tokenize_eq_nil h
    subst hs
    constructor <;> rfl
  · have hd : diffLines s s = [⟨Kind.unchanged, s⟩] := diffLines_self s h
    have hr : render s s = renderSegment ⟨Kind.unchanged, s⟩ := by
      simp [render, hd]
    constructor
    · rw [hr, renderSegment_contents]
    · rw [hr, List.all_eq_true]
      intro l hl
      have := renderSegment_kind _ _ hl
      simp [this]

/-- C5. On two empty inputs the renderer yields zero segments and zero
rendered lines. -/
theorem claim_C5_both_empty :
    diffLines "" "" = [] ∧ render "" "" = [] := by
  constructor <;> rfl

/-- C6 fails as stated: on `"a \n"` versus `"a\n"` the rendered output does
contain an unchanged line — the shared `"\n"` token forms an unchanged
segment that renders as one empty unchanged line. -/
theorem claim_C6_counterexample :
    (render "a \n" "a\n").filter (fun l => l.kind == Kind.unchanged) ≠ [] := by
  decide

/-- C6 (amended). The comparison is whitespace-sensitive: on `"a \n"`
versus `"a\n"` the content lines are classified as changed — a removed line
`"a "` and an added line `"a"` — and the shared line terminator additionally
yields one empty unchanged line. -/
theorem claim_C6_whitespace_render :
    render "a \n" "a\n" =
      [⟨Kind.removed, "- ", "a ", false⟩,
       ⟨Kind.added, "+ ", "a", false⟩,
       ⟨Kind.unchanged, "  ", "", true⟩] := by
  decide

/-- C9. Rendering is deterministic: the output depends only on the two
input strings, so equal inputs give identical output sequences. -/
theorem claim_C9_deterministic (a1 b1 a2 b2 : String)
    (ha : a1 = a2) (hb : b1 = b2) : render a1 b1 = render a2 b2 := by
  rw [ha, hb]

theorem claim_C9_witness : render "a" "b" = render "a" "b" :=
  claim_C9_deterministic "a" "b" "a" "b" rfl rfl

/-! ## The final element of a line split -/

theorem splitNl_ne_nil (cs : List Char) : splitNl cs ≠ [] := by
  cases cs with
  | nil => simp [splitNl]
  | cons c cs =>
    simp only [splitNl]
    split
    · simp
    · split <;> simp

theorem splitNl_eq_nil_singleton {cs : List Char} (h : splitNl cs = [[]]) :
    cs = [] := by
  cases cs with
  | nil => rfl
  | cons c cs =>
    exfalso
    simp only [splitNl] at h
    by_cases hc : c = '\n'
    · rw [if_pos hc] at h
      have h2 : splitNl cs = [] := by
        injection h with _ h2
      exact splitNl_ne_nil cs h2
    · rw [if_neg hc] at h
      cases hsp : splitNl cs with
      | nil => exact splitNl_ne_nil cs hsp
      | cons l ls =>
        rw [hsp] at h
        injection h with h1 _
        exact List.cons_ne_nil c l h1

theorem splitNl_getLast (cs : List Char) :
    (splitNl cs).getLast? = some [] ↔ (cs = [] ∨ cs.getLast? = some '\n') := by
  induction cs with
  | nil => simp [splitNl]
  | cons c cs ih =>
    cases hcs : cs with
    | nil =>
      by_cases hc : c = '\n' <;> simp [splitNl, hc]
    | cons c2 cs2 =>
      rw [← hcs]
      have hne : cs ≠ [] := by rw [hcs]; simp
      have hlast : (c :: cs).getLast? = cs.getLast? := by
        rw [hcs]; exact List.getLast?_cons_cons
      have ihr : (splitNl cs).getLast? = some [] ↔ cs.getLast? = some '\n' := by
        rw [ih]
        exact or_iff_right hne
      have hrhs : (c :: cs = [] ∨ (c :: cs).getLast? = some '\n')
          ↔ cs.getLast? = some '\n' := by
        rw [hlast]
        simp
      rw [hrhs]
      by_cases hc : c = '\n'
      · simp only [splitNl, if_pos hc]
        obtain ⟨l, ls, hsp⟩ : ∃ l ls, splitNl cs = l :: ls := by
          cases hsp : splitNl cs with
          | nil => exact absurd hsp (splitNl_ne_nil cs)
          | cons l ls => exact ⟨l, ls, rfl⟩
        rw [hsp, List.getLast?_cons_cons, ← hsp, ihr]
      · simp only [splitNl, if_neg hc]
        obtain ⟨l, ls, hsp⟩ : ∃ l ls, splitNl cs = l :: ls := by
          cases hsp : splitNl cs with
          | nil => exact absurd hsp (splitNl_ne_nil cs)
          | cons l ls => exact ⟨l, ls, rfl⟩
        rw [hsp]
        cases ls with
        | nil =>
          simp only [List.getLast?_singleton]
          constructor
          · intro hcl
            exact absurd hcl (by simp)
          · intro hnl
            exfalso
            have : (splitNl cs).getLast? = some [] := ihr.mpr hnl
            rw [hsp] at this
            simp only [List.getLast?_singleton, Option.some.injEq] at this
            subst this
            exact hne (splitNl_eq_nil_singleton hsp)
        | cons l2 ls2 =>
          rw [List.getLast?_cons_cons, ← @List.getLast?_cons_cons _ l l2 ls2, ← hsp, ihr]

theorem splitLines_getLast (s : String) :
    (splitLines s).getLast? = some "" ↔ (endsWithNl s = true ∨ s = "") := by
  rw [splitLines, List.getLast?_map]
  constructor
  · intro h
    obtain ⟨lc, hlc, hmk⟩ := Option.map_eq_some'.mp h
    have hl : lc = [] := by
      have : (String.mk lc).data = ("" : String).data := by rw [hmk]
      simpa using this
    subst hl
    rcases (splitNl_getLast s.data).mp hlc with hnil | hnl
    · right
      exact String.ext hnil
    · left
      rw [endsWithNl]
      simpa using hnl
  · intro h
    have hlast : (splitNl s.data).getLast? = some [] := by
      apply (splitNl_getLast s.data).mpr
      rcases h with hnl | hnil
      · right
        rw [endsWithNl] at hnl
        simpa using hnl
      · left
        rw [hnil]
    rw [hlast]
    rfl

/-- C3 fails as stated: the diff of `"\n"` against `"x\n"` contains a
removed segment with empty text, whose split has a final empty element even
though the text does not end in a line break, refuting "present exactly when
the segment's text ends in a line break". -/
theorem claim_C3_counterexample :
    (⟨Kind.removed, ""⟩ : DiffSegment) ∈ diffLines "\n" "x\n"
    ∧ ¬(((splitLines "").getLast? = some "") ↔ endsWithNl "" = true) := by
  decide

/-- C3 (amended). For every diff segment, the segment's rendered lines are
its text split on line breaks with a final empty element dropped; that
final empty element is present exactly when the segment's text ends in a
line break or is empty. -/
theorem claim_C3_segment_lines (a b : String) (seg : DiffSegment)
    (_hmem : seg ∈ diffLines a b) :
    (renderSegment seg).map RenderedLine.content = dropFinalEmpty (splitLines seg.text)
    ∧ (((splitLines seg.text).getLast? = some "")
        ↔ (endsWithNl seg.text = true ∨ seg.text = "")) := by
  refine ⟨?_, splitLines_getLast seg.text⟩
  rw [renderSegment_contents]
  rfl

theorem claim_C3_witness :
    (renderSegment ⟨Kind.unchanged, "a"⟩).map RenderedLine.content
        = dropFinalEmpty (splitLines "a")
    ∧ (((splitLines "a").getLast? = some "")
        ↔ (endsWithNl "a" = true ∨ "a" = "")) :=
  claim_C3_segment_lines "a" "a" ⟨Kind.unchanged, "a"⟩ (by decide)

/-- C4. Every rendered line of a diff segment carries the prefix `"+ "` for
an added segment, `"- "` for a removed one and `"  "` for an unchanged one,
and its break flag is set iff it is not the last line of its segment or the
segment's text ends in a line break. -/
theorem claim_C4_line_decoration (a b : String) (seg : DiffSegment)
    (_hmem : seg ∈ diffLines a b) (i : Nat) (rl : RenderedLine)
    (hget : (renderSegment seg)[i]? = some rl) :
    (seg.kind = Kind.added → rl.pre = "+ ")
    ∧ (seg.kind = Kind.removed → rl.pre = "- ")
    ∧ (seg.kind = Kind.unchanged → rl.pre = "  ")
    ∧ (rl.hasBreak = true
        ↔ (i ≠ (segLines seg.text).length - 1 ∨ endsWithNl seg.text = true)) := by
  simp only [renderSegment, List.getElem?_map, List.getElem?_enum] at hget
  obtain ⟨p, hp, hrl⟩ := Option.map_eq_some'.mp hget
  obtain ⟨line, hline, hpair⟩ := Option.map_eq_some'.mp hp
  have hib : i < (segLines seg.text).length := (List.getElem?_eq_some.mp hline).1
  subst hrl
  subst hpair
  refine ⟨?_, ?_, ?_, ?_⟩
  · intro hk
    rw [hk]
    rfl
  · intro hk
    rw [hk]
    rfl
  · intro hk
    rw [hk]
    rfl
  · cases he : endsWithNl seg.text
    · simp only [he, Bool.or_false, decide_eq_true_eq]
      constructor
      · intro hlt
        exact Or.inl (by omega)
      · intro hd
        rcases hd with hne | habs
        · omega
        · exact Bool.noConfusion habs
    · simp [he]

theorem claim_C4_witness :
    ((Kind.unchanged = Kind.added → "  " = "+ ")
    ∧ (Kind.unchanged = Kind.removed → "  " = "- ")
    ∧ (Kind.unchanged = Kind.unchanged → "  " = "  ")
    ∧ ((false = true)
        ↔ (0 ≠ (segLines "a").length - 1 ∨ endsWithNl "a" = true))) :=
  claim_C4_line_decoration "a" "a" ⟨Kind.unchanged, "a"⟩ (by decide) 0
    ⟨Kind.unchanged, "  ", "a", false⟩ (by decide)

/-- C2 fails on the code: `updateDiffDisplay` guards on JavaScript string
truthiness, so a legitimately empty document, even after a fully successful
load, leaves the modal at the "Waiting for file content..." message and the
renderer is never invoked — the empty string cannot be told apart from
content that has not been loaded.  Here both files are present, file 1
loads as the empty string and file 2 as `"x"`, yet the outcome is the
waiting placeholder instead of a rendered diff. -/
theorem claim_C2_empty_content_not_compared :
    onOpen { file1Present := true, file2Present := true, initialFile2Provided := true,
             file1Content := "", file2Content := "" } (some "") (some "x")
      = OpenResult.shown DisplayResult.waiting := by
  rfl

/-- C8. If reading either document fails (or an expected second file is
missing), `onOpen` reports the load error and never invokes the renderer
for that attempt. -/
theorem claim_C8_read_failure_blocks_render (st : ModalState) (r1 r2 : Option String)
    (h : r1 = none ∨ (st.file2Present = true ∧ r2 = none)) :
    onOpen st r1 r2 = OpenResult.loadError := by
  rcases h with h | ⟨h2, hr⟩
  · subst h
    rfl
  · subst hr
    cases r1 with
    | none => rfl
    | some c1 => simp [onOpen, loadFilesContent, h2]

theorem claim_C8_witness :
    onOpen { file1Present := true, file2Present := true, initialFile2Provided := true,
             file1Content := "", file2Content := "" } none none
      = OpenResult.loadError :=
  claim_C8_read_failure_blocks_render _ none none (Or.inl rfl)

/-! ## No rendered line spans more than one physical line -/

theorem splitNl_no_newline (cs : List Char) :
    ∀ l ∈ splitNl cs, '\n' ∉ l := by
  induction cs with
  | nil =>
    intro l hl
    simp only [splitNl, List.mem_singleton] at hl
    subst hl
    simp
  | cons c cs ih =>
    intro l hl
    by_cases hc : c = '\n'
    · simp only [splitNl, if_pos hc] at hl
      rcases List.mem_cons.mp hl with rfl | hl
      · simp
      · exact ih l hl
    · simp only [splitNl, if_neg hc] at hl
      cases hsp : splitNl cs with
      | nil => exact absurd hsp (splitNl_ne_nil cs)
      | cons l1 ls =>
        rw [hsp] at hl
        rcases List.mem_cons.mp hl with rfl | hl
        · intro hmem
          rcases List.mem_cons.mp hmem with hh | hh
          · exact hc hh.symm
          · exact ih l1 (by rw [hsp]; exact List.mem_cons_self l1 ls) hh
        · exact ih l (by rw [hsp]; exact List.mem_cons_of_mem l1 hl)

theorem segLines_no_newline (s : String) (l : String) (hl : l ∈ segLines s) :
    hasNl l = false := by
  have hl2 : l ∈ splitLines s := by
    rw [segLines, dropFinalEmpty] at hl
    split at hl
    · exact List.dropLast_subset _ hl
    · exact hl
  rw [splitLines] at hl2
  obtain ⟨lc, hlc, rfl⟩ := List.mem_map.mp hl2
  have hnot : '\n' ∉ lc := splitNl_no_newline s.data lc hlc
  rw [hasNl, Bool.eq_false_iff]
  intro hcon
  have hmem : '\n' ∈ lc := by
    obtain ⟨a, ha, hbeq⟩ := List.contains_iff_exists_mem_beq.mp hcon
    have heq : '\n' = a := eq_of_beq hbeq
    rw [heq]
    exact ha
  exact hnot hmem

/-- C10. Every rendered line is a single physical line: neither its content
nor its prefix contains a line-break character. -/
theorem claim_C10_no_newline_in_rendered (a b : String) :
    ((render a b).all fun l => !hasNl l.content && !hasNl l.pre) = true := by
  rw [List.all_eq_true]
  intro rl hrl
  rw [render] at hrl
  obtain ⟨seg, hseg, hrl⟩ := List.mem_flatMap.mp hrl
  simp only [renderSegment, List.mem_map] at hrl
  obtain ⟨p, hp, rfl⟩ := hrl
  have hcl : p.2 ∈ segLines seg.text := by
    have hmap := List.enum_map_snd (segLines seg.text)
    exact hmap ▸ List.mem_map_of_mem Prod.snd hp
  have h1 : hasNl p.2 = false := segLines_no_newline _ _ hcl
  have h2 : hasNl (preOf seg.kind) = false := by
    cases seg.kind <;> decide
  simp [h1, h2]

end NoteDiff
